import Mathlib

/-!
Verification of the eurocore scheduling core against its specification.

The Rust source is shallowly embedded: `tokio::time::Instant` and
`Duration` become `Nat` (one unit per millisecond, matching the
constants in `lib.rs`), `VecDeque<Instant>` becomes `List Nat`
(`push_back` is append, `front` is `head`), and the `HashMap` of
per-nation restricted-action buckets becomes an association list with
unique keys.  `Instant`/`Duration` subtraction in the source is
`saturating_duration_since` / `saturating_sub` (tokio's `duration_since`
also saturates), which is exactly truncated `Nat` subtraction.  The
rate-limiter actor (`src/sync/ratelimiter.rs`) serializes all accesses,
so each `peek`/`acquire` is modelled as a pure state transformer taking
the current time `now` explicitly.
-/

namespace Eurocore

/-- Rate-limiter targets (src/sync/ratelimiter.rs, `enum Target`). -/
inductive Target where
  | recruitmentTelegram (sender : String)
  | telegram (sender : String)
  | restricted (sender : String)
  | standard
deriving DecidableEq, Repr

/-- State of the rate-limiter actor (src/sync/ratelimiter.rs, `struct Receiver`
minus the channel handle). -/
structure Receiver where
  maxRequests : Nat
  bucketLength : Nat
  requests : List Nat
  telegramCooldown : Nat
  telegrams : List Nat
  recruitmentCooldown : Nat
  recruitmentTelegrams : List Nat
  restrictedActionCooldown : Nat
  restrictedActions : List (String × List Nat)
deriving DecidableEq, Repr

/-- One `retain` pass of `clean_buckets`: keep entries `v` with
`now.duration_since(v) < window`. -/
def retainFresh (now window : Nat) (l : List Nat) : List Nat :=
  l.filter fun v => now - v < window

/-- Model of `Receiver::clean_buckets`: lazily prune expired entries from all
four buckets. -/
def cleanBuckets (now : Nat) (s : Receiver) : Receiver :=
  { s with
    requests := retainFresh now s.bucketLength s.requests
    telegrams := retainFresh now s.telegramCooldown s.telegrams
    recruitmentTelegrams := retainFresh now s.recruitmentCooldown s.recruitmentTelegrams
    restrictedActions :=
      s.restrictedActions.map fun p => (p.1, retainFresh now s.restrictedActionCooldown p.2) }

/-- Model of `Receiver::peek_recruitment`.  The source cleans the buckets and
then reads `self.recruitment_telegrams`; reading the freshly retained list is
the same thing. -/
def peekRecruitment (now : Nat) (s : Receiver) : Nat :=
  match retainFresh now s.recruitmentCooldown s.recruitmentTelegrams with
  | [] => 0
  | f :: rest => s.recruitmentCooldown * (f :: rest).length - (now - f)

/-- Model of `Receiver::peek_telegram`. -/
def peekTelegram (now : Nat) (s : Receiver) : Nat :=
  match retainFresh now s.telegramCooldown s.telegrams with
  | [] => 0
  | f :: rest => s.telegramCooldown * (f :: rest).length - (now - f)

/-- Model of `Receiver::peek_restricted`: the per-nation bucket is looked up
after cleaning; a missing or emptied bucket yields a zero wait. -/
def peekRestricted (now : Nat) (sender : String) (s : Receiver) : Nat :=
  match s.restrictedActions.lookup sender with
  | none => 0
  | some bucket =>
    match retainFresh now s.restrictedActionCooldown bucket with
    | [] => 0
    | f :: rest => s.restrictedActionCooldown * (f :: rest).length - (now - f)

/-- Model of `Receiver::peek_standard`: the global bucket divides the retained
count by `max_requests`. -/
def peekStandard (now : Nat) (s : Receiver) : Nat :=
  match retainFresh now s.bucketLength s.requests with
  | [] => 0
  | f :: rest => s.bucketLength * ((f :: rest).length / s.maxRequests) - (now - f)

/-- Model of `Receiver::peek`: the maximum of the per-bucket waits implied by
the target (the source takes `.max()` of the corresponding `vec!`). -/
def peek (now : Nat) (t : Target) (s : Receiver) : Nat :=
  match t with
  | .recruitmentTelegram sender =>
    max (max (max (peekRecruitment now s) (peekTelegram now s))
        (peekRestricted now sender s)) (peekStandard now s)
  | .telegram sender =>
    max (max (peekTelegram now s) (peekRestricted now sender s)) (peekStandard now s)
  | .restricted sender => max (peekRestricted now sender s) (peekStandard now s)
  | .standard => peekStandard now s

/-- Model of `self.restricted_actions.entry(sender).or_default().push_back(v)`
on the association list. -/
def pushRestricted (sender : String) (v : Nat) :
    List (String × List Nat) → List (String × List Nat)
  | [] => [(sender, [v])]
  | (k, b) :: rest =>
    if k = sender then (k, b ++ [v]) :: rest else (k, b) :: pushRestricted sender v rest

/-- Buckets a reservation is appended to, per target (the `match target` arms
of `Receiver::acquire`). -/
def pushTarget (t : Target) (v : Nat) (s : Receiver) : Receiver :=
  match t with
  | .recruitmentTelegram sender =>
    { s with
      recruitmentTelegrams := s.recruitmentTelegrams ++ [v]
      telegrams := s.telegrams ++ [v]
      restrictedActions := pushRestricted sender v s.restrictedActions
      requests := s.requests ++ [v] }
  | .telegram sender =>
    { s with
      telegrams := s.telegrams ++ [v]
      restrictedActions := pushRestricted sender v s.restrictedActions
      requests := s.requests ++ [v] }
  | .restricted sender =>
    { s with
      restrictedActions := pushRestricted sender v s.restrictedActions
      requests := s.requests ++ [v] }
  | .standard => { s with requests := s.requests ++ [v] }

/-- Model of `Receiver::acquire`: peek the wait (which prunes the buckets as a
side effect), reserve `now + wait` in every implied bucket, and return `Ok`
exactly when the wait is zero. -/
def acquire (now : Nat) (t : Target) (s : Receiver) : Except Nat Unit × Receiver :=
  let wait := peek now t s
  let requestAt := now + wait
  (if wait = 0 then Except.ok () else Except.error wait,
   pushTarget t requestAt (cleanBuckets now s))

/-- Retained per-nation restricted bucket of a state (the `HashMap::get` view,
defaulting to an empty deque). -/
def getBucket (s : Receiver) (sender : String) : List Nat :=
  (s.restrictedActions.lookup sender).getD []

/-- Fresh receiver as built by `ratelimiter::new` /  `Receiver::new`: all
buckets empty. -/
def initReceiver (maxRequests bucketLength telegramCooldown recruitmentCooldown
    restrictedActionCooldown : Nat) : Receiver :=
  { maxRequests := maxRequests
    bucketLength := bucketLength
    requests := []
    telegramCooldown := telegramCooldown
    telegrams := []
    recruitmentCooldown := recruitmentCooldown
    recruitmentTelegrams := []
    restrictedActionCooldown := restrictedActionCooldown
    restrictedActions := [] }

/-- The production configuration of the limiter (`lib.rs`): 50 requests per
30.05 s, telegram cooldown 30.05 s, recruitment cooldown 180.05 s, restricted
cooldown 60 s, in milliseconds. -/
def defaultReceiver : Receiver :=
  initReceiver 50 30050 30050 180050 60000

/-- Per-bucket wait as the specification words it (refinement reference for
C3): prune entries older than the window `W`, return zero when fewer than `C`
entries remain, else `W × ⌊count/C⌋ − (now − oldest_retained)` clamped at
zero, the oldest retained entry being the deque front (retention preserves
insertion order). -/
def bucketWait (W C now : Nat) (entries : List Nat) : Nat :=
  match entries.filter (fun v => now - v < W) with
  | [] => 0
  | f :: rest =>
    if (f :: rest).length < C then 0
    else W * ((f :: rest).length / C) - (now - f)

/-- Model of Rust `char::is_ascii`: the code point is at most `0x7F`. -/
def charIsAscii (c : Char) : Bool :=
  c.toNat ≤ 127

/-- Model of the `htmlentity::entity::encode(bytes, Decimal, All)` call of
`utils::encode::encode` on the UTF-8 bytes of a single non-ASCII character:
its HTML decimal numeric character reference. -/
def encodeNonAscii (c : Char) : String :=
  "&#" ++ toString c.toNat ++ ";"

/-- Model of `utils::encode::encode` (src/utils/encode.rs): map over the
characters, keeping ASCII characters and replacing non-ASCII ones by their
decimal numeric character reference, then collect the pieces into one
string. -/
def encode (input : String) : String :=
  String.join (input.data.map fun c =>
    if charIsAscii c then String.singleton c else encodeNonAscii c)

/-- Telegram kinds (src/ns/telegram.rs, `enum TgType`). -/
inductive TgType where
  | recruitment
  | standard
deriving DecidableEq, Repr

/-- Telegram submission parameters (src/ns/telegram.rs, `struct Params`). -/
structure TgParams where
  sender : String
  id : String
  recipient : String
  secretKey : String
  tgType : TgType
deriving DecidableEq, Repr

/-- Wire-form telegram (src/ns/telegram.rs, `struct Telegram`). -/
structure Telegram where
  sender : String
  action : String
  clientKey : String
  telegramId : String
  secretKey : String
  recipient : String
  tgType : TgType
deriving DecidableEq, Repr

/-- Model of `Telegram::from_params` (src/ns/telegram.rs): every field is
copied verbatim, with `action = "sendTG"` and the worker's client key. -/
def Telegram.fromParams (clientKey : String) (p : TgParams) : Telegram :=
  { sender := p.sender
    action := "sendTG"
    clientKey := clientKey
    telegramId := p.id
    secretKey := p.secretKey
    recipient := p.recipient
    tgType := p.tgType }

/-- The `to` query parameter serialized by `Client::send`
(src/workers/telegram.rs builds the outbound GET with `.query(&telegram)`,
whose `to` field is `Telegram.recipient` unchanged). -/
def sentRecipient (tg : Telegram) : String :=
  tg.recipient

/-- Modelled from the spec: the recipient normalization the specification
describes — lower-casing and replacing every space with an underscore.  No
corresponding code exists in the source tree. -/
def specNormalizeRecipient (s : String) : String :=
  ⟨s.data.map fun c => if c = ' ' then '_' else c.toLower⟩

/-- Worker tick period (src/workers/mod.rs, `PERIOD`): 2 s, in
milliseconds. -/
def PERIOD : Nat := 2000

/-- Dispatch actions (src/ns/dispatch.rs, `enum Action`); the factbook
category is abstracted to its integer projection. -/
inductive DispatchAction where
  | add (title text : String) (category : Int)
  | edit (id : Int) (title text : String) (category : Int)
  | remove (id : Int)
deriving DecidableEq, Repr

/-- In-memory dispatch job record (src/ns/dispatch.rs,
`struct IntermediateDispatch`). -/
structure IntermediateDispatch where
  jobId : Int
  nation : String
  user : String
  action : DispatchAction
deriving DecidableEq, Repr

/-- Whether a dispatch action is an `Add`. -/
def DispatchAction.isAdd : DispatchAction → Bool
  | .add _ _ _ => true
  | _ => false

/-- Target peeked by `Client::get_dispatch` (src/workers/dispatch.rs) for
every queued entry: `Target::restricted(&dispatch.nation)`, regardless of the
entry's action. -/
def dispatchPeekTarget (d : IntermediateDispatch) : Target :=
  Target.restricted d.nation

/-- Model of `Client::get_dispatch`: scan the queue in insertion order and
remove and return the first entry whose peeked wait is within the tick
period. -/
def getDispatch (now : Nat) (lim : Receiver) :
    List IntermediateDispatch → Option (IntermediateDispatch × List IntermediateDispatch)
  | [] => none
  | d :: rest =>
    if peek now (dispatchPeekTarget d) lim ≤ PERIOD then some (d, rest)
    else match getDispatch now lim rest with
      | none => none
      | some (d', rest') => some (d', d :: rest')

/-- Target acquired by `Client::post` (src/workers/dispatch.rs): the
per-nation restricted budget for `Add`, the plain standard budget for `Edit`
and `Remove`. -/
def dispatchAcquireTarget (d : IntermediateDispatch) : Target :=
  match d.action with
  | .add _ _ _ => Target.restricted d.nation
  | .edit _ _ _ _ => Target.standard
  | .remove _ => Target.standard

/-- Concrete `Edit` dispatch entry used by the C4 counterexample. -/
def dEditSample : IntermediateDispatch :=
  { jobId := 1, nation := "testlandia", user := "upc",
    action := DispatchAction.edit 7 "T" "body" 0 }

/-- Concrete `Add` dispatch entry used by the C4 witness. -/
def dAddSample : IntermediateDispatch :=
  { jobId := 2, nation := "testlandia", user := "upc",
    action := DispatchAction.add "T" "body" 0 }

/-- Error taxonomy of the nation cache (src/core/error.rs, restricted to what
the cache operations can produce). -/
inductive Error where
  | invalidNation
  | internal
deriving DecidableEq, Repr

/-- Cached nation credentials (src/sync/nations.rs, `struct Nation`). -/
structure Nation where
  name : String
  password : String
  pin : Option String
deriving DecidableEq, Repr

/-- The credential cache owned by the nations actor: a map from nation name
to record, embedded as an association list with unique keys. -/
abbrev NationsMap := List (String × Nation)

/-- Model of `Action::GetPassword` in `Receiver::process` combined with the
`Sender::get_password` unwrapping: a missing nation yields `InvalidNation`. -/
def getPassword (m : NationsMap) (nation : String) : Except Error String :=
  match m.lookup nation with
  | some nat => Except.ok nat.password
  | none => Except.error Error.invalidNation

/-- Model of `Action::GetPin` in `Receiver::process` combined with
`Sender::get_pin`: the receiver answers `Pin { pin: None }` for an unknown
nation and the sender returns it as `Ok(pin)` unchanged. -/
def getPin (m : NationsMap) (nation : String) : Except Error (Option String) :=
  match m.lookup nation with
  | some nat => Except.ok nat.pin
  | none => Except.ok none

/-- Overwrite the cached session pin of one nation record. -/
def setNationPin (pin : String) (nat : Nation) : Nation :=
  { nat with pin := some pin }

/-- Model of `Action::SetPin` in `Receiver::process` combined with
`Sender::set_pin`: `get_mut` updates the pin only when the nation is known,
and the receiver answers `Ok` either way. -/
def setPin (m : NationsMap) (nation pin : String) : Except Error Unit × NationsMap :=
  (Except.ok (),
   m.map fun p => if p.1 = nation then (p.1, setNationPin pin p.2) else p)

/-- Readiness test used by the telegram worker loops
(src/workers/telegram.rs): the peeked wait is within one tick period. -/
def telegramEligible (now : Nat) (lim : Receiver) (mk : String → Target) (tg : Telegram) : Bool :=
  peek now (mk tg.sender) lim ≤ PERIOD

/-- One queue scan of `Client::get_telegram`: return the first entry whose
peeked wait is within the tick period, removed from its position. -/
def scanQueue (now : Nat) (lim : Receiver) (mk : String → Target) :
    List Telegram → Option (Telegram × List Telegram)
  | [] => none
  | tg :: rest =>
    if telegramEligible now lim mk tg then some (tg, rest)
    else match scanQueue now lim mk rest with
      | none => none
      | some (t, rest') => some (t, tg :: rest')

/-- Model of `Client::get_telegram`: the recruitment queue is scanned first
(with `RecruitmentTelegram` targets), then the standard queue (with
`Telegram` targets). -/
def getTelegram (now : Nat) (lim : Receiver) (rq sq : List Telegram) :
    Option Telegram × List Telegram × List Telegram :=
  match scanQueue now lim Target.recruitmentTelegram rq with
  | some (tg, rq') => (some tg, rq', sq)
  | none =>
    match scanQueue now lim Target.telegram sq with
    | some (tg, sq') => (some tg, rq, sq')
    | none => (none, rq, sq)

/-- Telegrams posted during one `try_send` tick: the picked entry, if any. -/
def trySendPosts (now : Nat) (lim : Receiver) (rq sq : List Telegram) : List Telegram :=
  match (getTelegram now lim rq sq).1 with
  | some tg => [tg]
  | none => []

/-- Concrete recruitment telegram used by the C5 witness. -/
def tgSample : Telegram :=
  Telegram.fromParams "ck"
    { sender := "euro1", id := "42", recipient := "somenation",
      secretKey := "sk", tgType := TgType.recruitment }

/-- Commands accepted by the rate-limiter actor (`Action::Peek` and
`Action::Acquire`). -/
inductive Call where
  | peekCall (t : Target)
  | acquireCall (t : Target)
deriving DecidableEq, Repr

/-- Whether an acquire of this target appends to nation `n`'s restricted
bucket. -/
def touchesRestricted (n : String) : Target → Bool
  | .recruitmentTelegram sender => sender = n
  | .telegram sender => sender = n
  | .restricted sender => sender = n
  | .standard => false

/-- Run a sequence of timed rate-limiter commands from a state, recording the
reservation timestamps appended to nation `n`'s restricted bucket.  A peek
leaves only the lazy pruning of `clean_buckets` behind; an acquire is
`Receiver::acquire`. -/
def runTrace (n : String) : List (Nat × Call) → Receiver → Receiver × List Nat
  | [], s => (s, [])
  | (now, Call.peekCall _) :: rest, s => runTrace n rest (cleanBuckets now s)
  | (now, Call.acquireCall tgt) :: rest, s =>
    let w := peek now tgt s
    let out := runTrace n rest (acquire now tgt s).2
    (out.1, (if touchesRestricted n tgt then [now + w] else []) ++ out.2)

/-- Call sequence (all under the default configuration, times in ms)
exhibiting the restricted-bucket spacing violation: two telegram acquires by
other senders inflate the telegram cooldown, a telegram acquire by nation `n`
then reserves `restricted[n]` at `60100`, and an immediate restricted acquire
by `n` reserves at `60000` — only 100 ms apart. -/
def cexCalls : List (Nat × Call) :=
  [(0, Call.acquireCall (Target.telegram "m1")),
   (0, Call.acquireCall (Target.telegram "m2")),
   (0, Call.acquireCall (Target.telegram "n")),
   (0, Call.acquireCall (Target.restricted "n"))]

/-- Whether every acquire in a command sequence targets `Restricted{n}` for
the one nation `n` (peeks may target anything). -/
def restrictedOnlyB (n : String) (calls : List (Nat × Call)) : Bool :=
  calls.all fun c =>
    match c.2 with
    | Call.peekCall _ => true
    | Call.acquireCall tgt => tgt = Target.restricted n

/-- Invariant of the rate-limiter state reachable by `Restricted{n}`-only
acquires, at time `t`, with `trace` the restricted reservations recorded so
far and `bucket` the current retained restricted bucket of `n`:
the bucket is a suffix of the trace, spaced exactly one restricted window
apart, fresh at `t`, headed no later than `t`; every still-fresh recorded
reservation is in the bucket; the global bucket is the restricted bucket
pruned to the (smaller) global window; the other buckets are empty; and the
whole trace is spaced at least one restricted window apart. -/
structure RBInv (n : String) (t : Nat) (s : Receiver) (trace : List Nat)
    (bucket : List Nat) : Prop where
  hN : 2 ≤ s.maxRequests
  hWb : 1 ≤ s.bucketLength
  hWW : s.bucketLength ≤ s.restrictedActionCooldown
  htg : s.telegrams = []
  hrec : s.recruitmentTelegrams = []
  htrace : List.Chain' (fun a b => a + s.restrictedActionCooldown ≤ b) trace
  hmap : (s.restrictedActions = [] ∧ bucket = []) ∨ s.restrictedActions = [(n, bucket)]
  hsuf : bucket.IsSuffix trace
  hchain : List.Chain' (fun a b => b = a + s.restrictedActionCooldown) bucket
  hfresh : ∀ v ∈ bucket, t - v < s.restrictedActionCooldown
  hhead : ∀ f, bucket.head? = some f → f ≤ t
  hmem : ∀ v ∈ trace, t - v < s.restrictedActionCooldown → v ∈ bucket
  hreq : s.requests = retainFresh t s.bucketLength bucket

/-- Invariant with the bucket existentially packaged. -/
def RInv (n : String) (t : Nat) (s : Receiver) (trace : List Nat) : Prop :=
  ∃ bucket, RBInv n t s trace bucket

/-- Concrete call sequence for the C2 witness: two restricted acquires by one
nation, 10 ms apart. -/
def witCalls : List (Nat × Call) :=
  [(0, Call.acquireCall (Target.restricted "wa")),
   (10, Call.acquireCall (Target.restricted "wa"))]

theorem lookup_pushRestricted (sender : String) (v : Nat) :
    ∀ m : List (String × List Nat),
      (pushRestricted sender v m).lookup sender = some ((m.lookup sender).getD [] ++ [v])
  | [] => by simp [pushRestricted, List.lookup]
  | (k, b) :: rest => by
    by_cases h : k = sender
    · subst h
      simp [pushRestricted, List.lookup]
    · have hbeq : (sender == k) = false := by
        simp [BEq.beq]
        exact fun hh => h hh.symm
      simp only [pushRestricted, if_neg h, List.lookup, hbeq]
      exact lookup_pushRestricted sender v rest

theorem getBucket_pushTarget_recruitment (sender : String) (v : Nat) (s : Receiver) :
    getBucket (pushTarget (Target.recruitmentTelegram sender) v s) sender =
      getBucket s sender ++ [v] := by
  simp [getBucket, pushTarget, lookup_pushRestricted]

/-- C1: `acquire(t)` computes the wait `w = peek(t)`, appends the reservation
timestamp `now + w` to every bucket implied by `t` (all four for
`RecruitmentTelegram`, three for `Telegram`, two for `Restricted`, the global
bucket alone for `Standard`), leaves the buckets not implied by `t` untouched
(beyond the lazy pruning done by the peek), and returns `Ok(())` when `w` is
zero and `Err(w)` otherwise — the reservation staying in place either way. -/
theorem c1_acquire (now : Nat) (t : Target) (s : Receiver) :
    (acquire now t s).1 =
      (if peek now t s = 0 then Except.ok () else Except.error (peek now t s)) ∧
    (acquire now t s).2.requests =
      (cleanBuckets now s).requests ++ [now + peek now t s] ∧
    (match t with
     | Target.recruitmentTelegram sender =>
       (acquire now t s).2.recruitmentTelegrams =
         (cleanBuckets now s).recruitmentTelegrams ++ [now + peek now t s] ∧
       (acquire now t s).2.telegrams =
         (cleanBuckets now s).telegrams ++ [now + peek now t s] ∧
       getBucket (acquire now t s).2 sender =
         getBucket (cleanBuckets now s) sender ++ [now + peek now t s]
     | Target.telegram sender =>
       (acquire now t s).2.recruitmentTelegrams = (cleanBuckets now s).recruitmentTelegrams ∧
       (acquire now t s).2.telegrams =
         (cleanBuckets now s).telegrams ++ [now + peek now t s] ∧
       getBucket (acquire now t s).2 sender =
         getBucket (cleanBuckets now s) sender ++ [now + peek now t s]
     | Target.restricted sender =>
       (acquire now t s).2.recruitmentTelegrams = (cleanBuckets now s).recruitmentTelegrams ∧
       (acquire now t s).2.telegrams = (cleanBuckets now s).telegrams ∧
       getBucket (acquire now t s).2 sender =
         getBucket (cleanBuckets now s) sender ++ [now + peek now t s]
     | Target.standard =>
       (acquire now t s).2.recruitmentTelegrams = (cleanBuckets now s).recruitmentTelegrams ∧
       (acquire now t s).2.telegrams = (cleanBuckets now s).telegrams ∧
       (acquire now t s).2.restrictedActions = (cleanBuckets now s).restrictedActions) := by
  refine ⟨rfl, ?_, ?_⟩
  · cases t <;> rfl
  · cases t <;> simp [acquire, pushTarget, getBucket, lookup_pushRestricted]

/-- C3: every per-bucket peek of the rate limiter computes the specification's
pruned-window formula, with capacity `C = 1` for the recruitment, telegram and
per-nation restricted buckets and `C = max_requests` for the global bucket. -/
theorem c3_bucket_peek (now : Nat) (sender : String) (s : Receiver)
    (h : 0 < s.maxRequests) :
    peekRecruitment now s = bucketWait s.recruitmentCooldown 1 now s.recruitmentTelegrams ∧
    peekTelegram now s = bucketWait s.telegramCooldown 1 now s.telegrams ∧
    peekRestricted now sender s =
      bucketWait s.restrictedActionCooldown 1 now (getBucket s sender) ∧
    peekStandard now s = bucketWait s.bucketLength s.maxRequests now s.requests := by
  refine ⟨?_, ?_, ?_, ?_⟩
  · unfold peekRecruitment bucketWait retainFresh
    cases s.recruitmentTelegrams.filter (fun v => now - v < s.recruitmentCooldown) <;> simp
  · unfold peekTelegram bucketWait retainFresh
    cases s.telegrams.filter (fun v => now - v < s.telegramCooldown) <;> simp
  · unfold peekRestricted bucketWait getBucket retainFresh
    cases s.restrictedActions.lookup sender with
    | none => simp
    | some bucket =>
      cases bucket.filter (fun v => now - v < s.restrictedActionCooldown) <;> simp
  · unfold peekStandard bucketWait retainFresh
    cases s.requests.filter (fun v => now - v < s.bucketLength) with
    | nil => simp
    | cons f rest =>
      dsimp only
      by_cases hlt : (f :: rest).length < s.maxRequests
      · rw [if_pos hlt, Nat.div_eq_of_lt hlt]
        simp
      · rw [if_neg hlt]

theorem c3_witness :
    0 < defaultReceiver.maxRequests ∧
    (peekRecruitment 0 defaultReceiver =
      bucketWait defaultReceiver.recruitmentCooldown 1 0 defaultReceiver.recruitmentTelegrams ∧
    peekTelegram 0 defaultReceiver =
      bucketWait defaultReceiver.telegramCooldown 1 0 defaultReceiver.telegrams ∧
    peekRestricted 0 "testlandia" defaultReceiver =
      bucketWait defaultReceiver.restrictedActionCooldown 1 0
        (getBucket defaultReceiver "testlandia") ∧
    peekStandard 0 defaultReceiver =
      bucketWait defaultReceiver.bucketLength defaultReceiver.maxRequests 0
        defaultReceiver.requests) :=
  ⟨by decide, c3_bucket_peek 0 "testlandia" defaultReceiver (by decide)⟩

/-- C10: peeked waits are monotone along the target-containment chain, because
each target's peek is the maximum over a superset of the per-bucket waits of
the next. -/
theorem c10_peek_monotone (now : Nat) (sender : String) (s : Receiver) :
    peek now (Target.telegram sender) s ≤ peek now (Target.recruitmentTelegram sender) s ∧
    peek now (Target.restricted sender) s ≤ peek now (Target.telegram sender) s ∧
    peek now Target.standard s ≤ peek now (Target.restricted sender) s := by
  simp only [peek]
  omega

/-- C7: `encode` is the concatenation of per-character translations that keep
each ASCII character and replace each non-ASCII character by its HTML decimal
numeric character reference; in particular it is a homomorphism for
concatenation and `encode("Héllo") = "H&#233;llo"`. -/
theorem c7_encode (s : String) (c : Char) :
    encode s = String.join (s.data.map fun ch =>
      if charIsAscii ch then String.singleton ch else "&#" ++ toString ch.toNat ++ ";") ∧
    (charIsAscii c = true → encode (String.singleton c) = String.singleton c) ∧
    (charIsAscii c = false → encode (String.singleton c) = "&#" ++ toString c.toNat ++ ";") ∧
    encode (String.singleton c ++ s) = encode (String.singleton c) ++ encode s ∧
    encode "Héllo" = "H&#233;llo" := by
  refine ⟨rfl, ?_, ?_, ?_, by decide⟩
  · intro h
    apply String.ext
    simp [encode, String.singleton_eq, h]
  · intro h
    apply String.ext
    simp [encode, String.singleton_eq, h, encodeNonAscii]
  · apply String.ext
    simp [encode, String.singleton_eq, String.data_append]

theorem c7_witness :
    (charIsAscii 'é' = false ∧ encode (String.singleton 'é') = "&#233;") ∧
    (charIsAscii 'H' = true ∧ encode (String.singleton 'H') = String.singleton 'H') :=
  ⟨⟨by decide, (c7_encode "" 'é').2.2.1 (by decide)⟩,
   ⟨by decide, (c7_encode "" 'H').2.1 (by decide)⟩⟩

/-- C8 counterexample: a telegram queued for recipient `"Test User"` is sent
with the recipient verbatim; the specification's normalization would have
produced `"test_user"`, so the claimed normalize-before-send does not
happen. -/
theorem c8_counterexample :
    sentRecipient (Telegram.fromParams "ckey"
      { sender := "euro_sender", id := "1234", recipient := "Test User",
        secretKey := "secret", tgType := TgType.standard }) = "Test User" ∧
    specNormalizeRecipient "Test User" = "test_user" ∧
    ("Test User" : String) ≠ "test_user" := by
  refine ⟨rfl, by decide, by decide⟩

/-- C8 amended: the telegram recipient is passed through to the remote host
verbatim — `from_params` copies it and `send` serializes it unchanged; no
lower-casing or space replacement is applied anywhere. -/
theorem c8_recipient_verbatim (clientKey : String) (p : TgParams) :
    sentRecipient (Telegram.fromParams clientKey p) = p.recipient :=
  rfl

/-- C4 counterexample: for an `Edit` entry the dispatch worker peeks
`Restricted{nation}` to decide readiness but later acquires `Standard`, so
the peeked and acquired targets differ. -/
theorem c4_counterexample :
    dispatchPeekTarget dEditSample = Target.restricted "testlandia" ∧
    dispatchAcquireTarget dEditSample = Target.standard ∧
    Target.restricted "testlandia" ≠ Target.standard :=
  ⟨rfl, rfl, by decide⟩

/-- C4 amended: `get_dispatch` peeks `Restricted{nation}` for every queued
entry whatever its action; `post` acquires `Restricted{nation}` for `Add` and
`Standard` for `Edit` and `Remove`; hence the peeked target equals the
acquired target exactly when the action is an `Add`. -/
theorem c4_targets (d : IntermediateDispatch) :
    dispatchPeekTarget d = Target.restricted d.nation ∧
    dispatchAcquireTarget d =
      (match d.action with
       | DispatchAction.add _ _ _ => Target.restricted d.nation
       | _ => Target.standard) ∧
    (dispatchPeekTarget d = dispatchAcquireTarget d ↔ d.action.isAdd = true) := by
  obtain ⟨j, n, u, a⟩ := d
  refine ⟨rfl, ?_, ?_⟩ <;>
    cases a <;> simp [dispatchPeekTarget, dispatchAcquireTarget, DispatchAction.isAdd]

theorem c4_witness :
    dispatchPeekTarget dAddSample = dispatchAcquireTarget dAddSample :=
  (c4_targets dAddSample).2.2.mpr rfl

theorem lookup_setPin_map (nation pin : String) :
    ∀ m : NationsMap,
      ((m.map fun p => if p.1 = nation then (p.1, setNationPin pin p.2) else p).lookup nation) =
        (m.lookup nation).map (setNationPin pin)
  | [] => rfl
  | (k, b) :: rest => by
    by_cases h : k = nation
    · subst h
      have h1 : (if ((k, b).1 = k) then ((k, b).1, setNationPin pin (k, b).2) else (k, b)) =
          (k, setNationPin pin b) := if_pos rfl
      have hbeq : (k == k) = true := by simp
      rw [List.map_cons, h1, List.lookup_cons, List.lookup_cons, hbeq]
      rfl
    · have hbeq : (nation == k) = false := beq_false_of_ne fun hh => h hh.symm
      have h1 : (if ((k, b).1 = nation) then ((k, b).1, setNationPin pin (k, b).2) else (k, b)) =
          (k, b) := if_neg h
      rw [List.map_cons, h1, List.lookup_cons, List.lookup_cons, hbeq]
      exact lookup_setPin_map nation pin rest

theorem setPin_map_of_lookup_none (nation pin : String) :
    ∀ m : NationsMap, m.lookup nation = none →
      (m.map fun p => if p.1 = nation then (p.1, setNationPin pin p.2) else p) = m
  | [], _ => rfl
  | (k, b) :: rest, hnone => by
    rw [List.lookup_cons] at hnone
    have hbeq : (nation == k) = false := by
      cases hb : nation == k
      · rfl
      · rw [hb] at hnone
        exact Option.noConfusion hnone
    rw [hbeq] at hnone
    have h : ¬ ((k, b).1 = nation) := by
      intro hh
      rw [show k = nation from hh] at hbeq
      simp at hbeq
    rw [List.map_cons, if_neg h, setPin_map_of_lookup_none nation pin rest hnone]

/-- C6 counterexample: on an unknown nation `get_pin` returns `Ok(None)` and
`set_pin` returns `Ok(())` as a silent no-op; neither fails with
`InvalidNation` as the claim states. -/
theorem c6_counterexample :
    getPin ([] : NationsMap) "missing" = Except.ok none ∧
    setPin ([] : NationsMap) "missing" "abc" = (Except.ok (), ([] : NationsMap)) ∧
    (Except.ok none : Except Error (Option String)) ≠ Except.error Error.invalidNation :=
  ⟨rfl, rfl, fun h => Except.noConfusion h⟩

/-- C6 amended: only `get_password` fails with `InvalidNation` on an unknown
nation; `get_pin` then returns `Ok(None)` and `set_pin` succeeds without
changing the cache.  For a known nation `get_pin` returns the stored optional
pin, `set_pin` succeeds, and a subsequent `get_pin` returns the new pin. -/
theorem c6_pin_ops (m : NationsMap) (nation pin : String) :
    (m.lookup nation = none →
      getPin m nation = Except.ok none ∧
      setPin m nation pin = (Except.ok (), m) ∧
      getPassword m nation = Except.error Error.invalidNation) ∧
    (∀ nat, m.lookup nation = some nat →
      getPin m nation = Except.ok nat.pin ∧
      (setPin m nation pin).1 = Except.ok () ∧
      getPin (setPin m nation pin).2 nation = Except.ok (some pin)) := by
  constructor
  · intro hnone
    refine ⟨?_, ?_, ?_⟩
    · simp [getPin, hnone]
    · simp [setPin, setPin_map_of_lookup_none nation pin m hnone]
    · simp [getPassword, hnone]
  · intro nat hsome
    refine ⟨?_, rfl, ?_⟩
    · simp [getPin, hsome]
    · have hl := lookup_setPin_map nation pin m
      rw [hsome] at hl
      simp only [getPin, setPin]
      rw [hl]
      simp [setNationPin]

theorem c6_witness :
    (getPin ([] : NationsMap) "nonesuch" = Except.ok none ∧
     setPin ([] : NationsMap) "nonesuch" "p1" = (Except.ok (), ([] : NationsMap)) ∧
     getPassword ([] : NationsMap) "nonesuch" = Except.error Error.invalidNation) ∧
    (getPin [("abc", { name := "abc", password := "pw", pin := none })] "abc" =
       Except.ok none ∧
     (setPin [("abc", { name := "abc", password := "pw", pin := none })] "abc" "p1").1 =
       Except.ok () ∧
     getPin (setPin [("abc", { name := "abc", password := "pw", pin := none })]
       "abc" "p1").2 "abc" = Except.ok (some "p1")) :=
  ⟨(c6_pin_ops [] "nonesuch" "p1").1 rfl,
   (c6_pin_ops [("abc", { name := "abc", password := "pw", pin := none })] "abc" "p1").2
     { name := "abc", password := "pw", pin := none } rfl⟩

theorem scanQueue_none_iff (now : Nat) (lim : Receiver) (mk : String → Target)
    (q : List Telegram) :
    scanQueue now lim mk q = none ↔ ∀ tg ∈ q, telegramEligible now lim mk tg = false := by
  induction q with
  | nil => simp [scanQueue]
  | cons tg rest ih =>
    by_cases h : telegramEligible now lim mk tg = true
    · simp [scanQueue, h]
    · have hf : telegramEligible now lim mk tg = false := by
        cases hh : telegramEligible now lim mk tg
        · rfl
        · exact absurd hh h
      cases hscan : scanQueue now lim mk rest with
      | none =>
        have hL : scanQueue now lim mk (tg :: rest) = none := by
          rw [scanQueue, if_neg h, hscan]
        rw [hL]
        constructor
        · intro _ u hu
          rcases List.mem_cons.mp hu with rfl | hu'
          · exact hf
          · exact ih.mp hscan u hu'
        · intro _
          rfl
      | some pr =>
        obtain ⟨t, rest'⟩ := pr
        have hL : scanQueue now lim mk (tg :: rest) = some (t, tg :: rest') := by
          rw [scanQueue, if_neg h, hscan]
        rw [hL]
        constructor
        · intro hcontra
          exact Option.noConfusion hcontra
        · intro hall
          have hrest := ih.mpr fun u hu => hall u (List.mem_cons_of_mem tg hu)
          rw [hscan] at hrest
          exact Option.noConfusion hrest

theorem scanQueue_some (now : Nat) (lim : Receiver) (mk : String → Target) :
    ∀ (q : List Telegram) (t : Telegram) (q' : List Telegram),
      scanQueue now lim mk q = some (t, q') →
      t ∈ q ∧ telegramEligible now lim mk t = true ∧ q'.length + 1 = q.length := by
  intro q
  induction q with
  | nil => intro t q' h; exact Option.noConfusion h
  | cons tg rest ih =>
    intro t q' h
    by_cases hel : telegramEligible now lim mk tg = true
    · rw [scanQueue, if_pos hel] at h
      obtain ⟨rfl, rfl⟩ : tg = t ∧ rest = q' := by
        injection h with h1
        injection h1 with h2 h3
        exact ⟨h2, h3⟩
      exact ⟨List.mem_cons_self _ _, hel, by simp⟩
    · rw [scanQueue, if_neg hel] at h
      cases hscan : scanQueue now lim mk rest with
      | none => rw [hscan] at h; exact Option.noConfusion h
      | some pr =>
        obtain ⟨t0, rest'⟩ := pr
        rw [hscan] at h
        obtain ⟨rfl, rfl⟩ : t0 = t ∧ tg :: rest' = q' := by
          injection h with h1
          injection h1 with h2 h3
          exact ⟨h2, h3⟩
        obtain ⟨hmem, helig, hlen⟩ := ih t0 rest' hscan
        refine ⟨List.mem_cons_of_mem _ hmem, helig, ?_⟩
        simp only [List.length_cons]
        omega

/-- C5: on each tick the telegram worker posts at most one telegram; when it
posts, exactly one entry leaves the two queues; the recruitment queue is
scanned first, so any ready recruitment entry preempts the standard queue;
and an entry is removed from the standard queue only when no recruitment
entry's peeked wait is within the tick period. -/
theorem c5_telegram_tick (now : Nat) (lim : Receiver) (rq sq : List Telegram) :
    (trySendPosts now lim rq sq).length ≤ 1 ∧
    ((getTelegram now lim rq sq).1 = none → (getTelegram now lim rq sq).2 = (rq, sq)) ∧
    (∀ tg, (getTelegram now lim rq sq).1 = some tg →
      (getTelegram now lim rq sq).2.1.length + (getTelegram now lim rq sq).2.2.length + 1 =
        rq.length + sq.length) ∧
    (∀ tg ∈ rq, telegramEligible now lim Target.recruitmentTelegram tg = true →
      ∃ tg', (getTelegram now lim rq sq).1 = some tg' ∧ tg' ∈ rq ∧
        telegramEligible now lim Target.recruitmentTelegram tg' = true ∧
        (getTelegram now lim rq sq).2.2 = sq) ∧
    ((getTelegram now lim rq sq).2.2.length < sq.length →
      ∀ tg ∈ rq, ¬ (peek now (Target.recruitmentTelegram tg.sender) lim ≤ PERIOD)) := by
  cases hr : scanQueue now lim Target.recruitmentTelegram rq with
  | some pr =>
    obtain ⟨tg, rq'⟩ := pr
    obtain ⟨hmem, helig, hlen⟩ := scanQueue_some now lim _ rq tg rq' hr
    refine ⟨?_, ?_, ?_, ?_, ?_⟩
    · simp [trySendPosts, getTelegram, hr]
    · intro h
      simp [getTelegram, hr] at h
    · intro tg0 h
      simp only [getTelegram, hr]
      omega
    · intro tg0 hmem0 helig0
      exact ⟨tg, by simp [getTelegram, hr], hmem, helig, by simp [getTelegram, hr]⟩
    · intro hlt
      simp only [getTelegram, hr] at hlt
      omega
  | none =>
    have hall := (scanQueue_none_iff now lim _ rq).mp hr
    have hnone : ∀ tg ∈ rq, ¬ (peek now (Target.recruitmentTelegram tg.sender) lim ≤ PERIOD) := by
      intro tg hmem
      have := hall tg hmem
      unfold telegramEligible at this
      exact of_decide_eq_false this
    cases hs : scanQueue now lim Target.telegram sq with
    | some pr =>
      obtain ⟨tg, sq'⟩ := pr
      obtain ⟨hmem, helig, hlen⟩ := scanQueue_some now lim _ sq tg sq' hs
      refine ⟨?_, ?_, ?_, ?_, ?_⟩
      · simp [trySendPosts, getTelegram, hr, hs]
      · intro h
        simp [getTelegram, hr, hs] at h
      · intro tg0 h
        simp only [getTelegram, hr, hs]
        omega
      · intro tg0 hmem0 helig0
        rw [hall tg0 hmem0] at helig0
        exact absurd helig0 (by simp)
      · intro _ tg0 hmem0
        exact hnone tg0 hmem0
    | none =>
      refine ⟨?_, ?_, ?_, ?_, ?_⟩
      · simp [trySendPosts, getTelegram, hr, hs]
      · intro _
        simp [getTelegram, hr, hs]
      · intro tg0 h
        simp [getTelegram, hr, hs] at h
      · intro tg0 hmem0 helig0
        rw [hall tg0 hmem0] at helig0
        exact absurd helig0 (by simp)
      · intro hlt
        simp only [getTelegram, hr, hs] at hlt
        omega

theorem c5_witness :
    ∃ tg', (getTelegram 0 defaultReceiver [tgSample] []).1 = some tg' ∧
      tg' ∈ [tgSample] ∧
      telegramEligible 0 defaultReceiver Target.recruitmentTelegram tg' = true ∧
      (getTelegram 0 defaultReceiver [tgSample] []).2.2 = ([] : List Telegram) :=
  (c5_telegram_tick 0 defaultReceiver [tgSample] []).2.2.2.1 tgSample
    (List.mem_cons_self _ _) (by decide)

theorem retain_retain (W t t' : Nat) (htt : t ≤ t') (l : List Nat) :
    retainFresh t' W (retainFresh t W l) = retainFresh t' W l := by
  unfold retainFresh
  rw [List.filter_filter]
  apply List.filter_congr
  intro v _
  by_cases h' : t' - v < W
  · have h : t - v < W := by omega
    simp [h, h']
  · simp [h']

theorem retain_absorb (W1 W2 t : Nat) (hW : W1 ≤ W2) (l : List Nat) :
    retainFresh t W1 (retainFresh t W2 l) = retainFresh t W1 l := by
  unfold retainFresh
  rw [List.filter_filter]
  apply List.filter_congr
  intro v _
  by_cases h1 : t - v < W1
  · have h2 : t - v < W2 := by omega
    simp [h1, h2]
  · simp [h1]

theorem lookup_map_values (f : List Nat → List Nat) (k : String) :
    ∀ m : List (String × List Nat),
      (m.map fun p => (p.1, f p.2)).lookup k = (m.lookup k).map f
  | [] => rfl
  | (a, b) :: rest => by
    rw [List.map_cons, List.lookup_cons, List.lookup_cons]
    cases hb : k == a with
    | false => exact lookup_map_values f k rest
    | true => rfl

theorem getBucket_clean (t : Nat) (s : Receiver) (sender : String) :
    getBucket (cleanBuckets t s) sender =
      retainFresh t s.restrictedActionCooldown (getBucket s sender) := by
  unfold getBucket cleanBuckets
  rw [lookup_map_values]
  cases s.restrictedActions.lookup sender <;> simp [retainFresh]

theorem peekRestricted_eq_getBucket (now : Nat) (sender : String) (s : Receiver) :
    peekRestricted now sender s =
      (match retainFresh now s.restrictedActionCooldown (getBucket s sender) with
       | [] => 0
       | f :: rest => s.restrictedActionCooldown * (f :: rest).length - (now - f)) := by
  unfold peekRestricted getBucket
  cases s.restrictedActions.lookup sender <;> simp [retainFresh]

theorem peekRecruitment_clean (t t' : Nat) (htt : t ≤ t') (s : Receiver) :
    peekRecruitment t' (cleanBuckets t s) = peekRecruitment t' s := by
  unfold peekRecruitment cleanBuckets
  dsimp only
  rw [retain_retain _ _ _ htt]

theorem peekTelegram_clean (t t' : Nat) (htt : t ≤ t') (s : Receiver) :
    peekTelegram t' (cleanBuckets t s) = peekTelegram t' s := by
  unfold peekTelegram cleanBuckets
  dsimp only
  rw [retain_retain _ _ _ htt]

theorem peekStandard_clean (t t' : Nat) (htt : t ≤ t') (s : Receiver) :
    peekStandard t' (cleanBuckets t s) = peekStandard t' s := by
  unfold peekStandard cleanBuckets
  dsimp only
  rw [retain_retain _ _ _ htt]

theorem peekRestricted_clean (t t' : Nat) (htt : t ≤ t') (sender : String) (s : Receiver) :
    peekRestricted t' sender (cleanBuckets t s) = peekRestricted t' sender s := by
  rw [peekRestricted_eq_getBucket, peekRestricted_eq_getBucket, getBucket_clean]
  dsimp only [cleanBuckets]
  rw [retain_retain _ _ _ htt]

theorem peek_clean (t t' : Nat) (htt : t ≤ t') (tgt : Target) (s : Receiver) :
    peek t' tgt (cleanBuckets t s) = peek t' tgt s := by
  cases tgt <;>
    simp [peek, peekRecruitment_clean t t' htt, peekTelegram_clean t t' htt,
      peekStandard_clean t t' htt, peekRestricted_clean t t' htt]

theorem clean_clean (t t' : Nat) (htt : t ≤ t') (s : Receiver) :
    cleanBuckets t' (cleanBuckets t s) = cleanBuckets t' s := by
  unfold cleanBuckets
  dsimp only
  congr 1
  · exact retain_retain _ _ _ htt _
  · exact retain_retain _ _ _ htt _
  · exact retain_retain _ _ _ htt _
  · rw [List.map_map]
    apply List.map_congr_left
    intro p _
    dsimp only [Function.comp]
    rw [retain_retain _ _ _ htt]

theorem acquire_clean (t t' : Nat) (htt : t ≤ t') (tgt : Target) (s : Receiver) :
    acquire t' tgt (cleanBuckets t s) = acquire t' tgt s := by
  unfold acquire
  rw [peek_clean t t' htt, clean_clean t t' htt]

/-- C9 amended: a `peek` mutates the actor state only by the lazy pruning of
`clean_buckets`, and that pruning is observationally invisible — an
immediately repeated peek returns the same duration, and any later peek or
acquire (at a time `now' ≥ now`) returns the same result and the same
post-state whether or not the peek happened.  (The further claim that the
peeked wait is the wait after which `acquire` would return `Ok` is refuted by
`c9_counterexample`.) -/
theorem c9_peek_pure (now now' : Nat) (t t' : Target) (s : Receiver) (h : now ≤ now') :
    peek now t (cleanBuckets now s) = peek now t s ∧
    peek now' t' (cleanBuckets now s) = peek now' t' s ∧
    acquire now' t' (cleanBuckets now s) = acquire now' t' s :=
  ⟨peek_clean now now (Nat.le_refl now) t s, peek_clean now now' h t' s,
   acquire_clean now now' h t' s⟩

theorem c9_witness :
    (0 : Nat) ≤ 5 ∧
    (peek 0 Target.standard (cleanBuckets 0 defaultReceiver) =
       peek 0 Target.standard defaultReceiver ∧
     peek 5 (Target.restricted "abc") (cleanBuckets 0 defaultReceiver) =
       peek 5 (Target.restricted "abc") defaultReceiver ∧
     acquire 5 (Target.restricted "abc") (cleanBuckets 0 defaultReceiver) =
       acquire 5 (Target.restricted "abc") defaultReceiver) :=
  ⟨Nat.zero_le 5,
   c9_peek_pure 0 5 Target.standard (Target.restricted "abc") defaultReceiver (Nat.zero_le 5)⟩

/-- C2 counterexample: from the empty default state, the four acquires of
`cexCalls` (issued at time 0, a legal nondecreasing call sequence) record the
reservations `60100` and `60000` in `Restricted{"n"}` — they differ by
100 ms, far less than the restricted window `W_r = 60000` ms. -/
theorem c2_counterexample :
    (runTrace "n" cexCalls defaultReceiver).2 = [60100, 60000] ∧
    getBucket (runTrace "n" cexCalls defaultReceiver).1 "n" = [60100, 60000] ∧
    60100 - 60000 < 60000 ∧ 60000 - 60100 < 60000 := by
  refine ⟨by decide, by decide, by decide, by decide⟩

/-- C9 counterexample: in the (reachable) state left by `cexCalls`,
`peek(Restricted{"n"})` at time 0 returns 120000 ms, yet an acquire issued
exactly 120000 ms later still returns `Err(100)` — the peeked duration is not
the wait after which `acquire` would return `Ok`. -/
theorem c9_counterexample :
    peek 0 (Target.restricted "n") (runTrace "n" cexCalls defaultReceiver).1 = 120000 ∧
    (acquire (0 + 120000) (Target.restricted "n")
      (runTrace "n" cexCalls defaultReceiver).1).1 = Except.error 100 := by
  refine ⟨by decide, rfl⟩

theorem pairwise_of_gap_chain (W : Nat) :
    ∀ l : List Nat, List.Chain' (fun a b => a + W ≤ b) l →
      List.Pairwise (fun a b => a + W ≤ b) l := by
  intro l
  induction l with
  | nil => intro _; exact List.Pairwise.nil
  | cons a rest ih =>
    intro h
    have htail : List.Chain' (fun a b => a + W ≤ b) rest := h.tail
    have hpw := ih htail
    refine List.Pairwise.cons ?_ hpw
    intro b hb
    cases rest with
    | nil => cases hb
    | cons x xs =>
      have hax : a + W ≤ x := (List.chain'_cons.mp h).1
      rcases List.mem_cons.mp hb with rfl | hb'
      · exact hax
      · have hxb : x + W ≤ b := (List.pairwise_cons.mp hpw).1 b hb'
        omega

theorem pairwise_le_of_chain_prog (W : Nat) (l : List Nat)
    (h : List.Chain' (fun a b => b = a + W) l) :
    List.Pairwise (fun a b : Nat => a ≤ b) l := by
  have hle : List.Chain' (fun a b : Nat => a ≤ b) l := by
    refine h.imp ?_
    intro a b hab
    omega
  exact List.chain'_iff_pairwise.mp hle

theorem retainFresh_suffix (t W : Nat) :
    ∀ l : List Nat, List.Pairwise (fun a b : Nat => a ≤ b) l →
      (retainFresh t W l).IsSuffix l
  | [], _ => List.nil_suffix
  | a :: rest, h => by
    obtain ⟨hhead, htail⟩ := List.pairwise_cons.mp h
    by_cases hk : t - a < W
    · have heq : retainFresh t W (a :: rest) = a :: rest := by
        unfold retainFresh
        rw [List.filter_eq_self.mpr]
        intro v hv
        rcases List.mem_cons.mp hv with rfl | hv'
        · simpa using hk
        · have := hhead v hv'
          simp only [decide_eq_true_eq]
          omega
      rw [heq]
    · have heq : retainFresh t W (a :: rest) = retainFresh t W rest := by
        unfold retainFresh
        rw [List.filter_cons_of_neg]
        simpa using hk
      rw [heq]
      exact (retainFresh_suffix t W rest htail).trans (List.suffix_cons a rest)

theorem retainFresh_head_le (t W : Nat) (hW : 1 ≤ W) :
    ∀ l : List Nat, List.Chain' (fun a b => b = a + W) l →
      (∀ f, l.head? = some f → f ≤ t) →
      ∀ f, (retainFresh t W l).head? = some f → f ≤ t
  | [], _, _ => by
    intro f hf
    simp [retainFresh] at hf
  | a :: rest, hchain, hhead => by
    intro f hf
    by_cases hk : t - a < W
    · rw [show retainFresh t W (a :: rest) = a :: retainFresh t W rest by
        unfold retainFresh
        rw [List.filter_cons_of_pos]
        simpa using hk] at hf
      have haf : a = f := by
        simpa using hf
      exact haf ▸ hhead a rfl
    · rw [show retainFresh t W (a :: rest) = retainFresh t W rest by
        unfold retainFresh
        rw [List.filter_cons_of_neg]
        simpa using hk] at hf
      have ha : a ≤ t := hhead a rfl
      cases rest with
      | nil => simp [retainFresh] at hf
      | cons x xs =>
        have hx : x = a + W := (List.chain'_cons.mp hchain).1
        refine retainFresh_head_le t W hW (x :: xs) (List.chain'_cons.mp hchain).2 ?_ f hf
        intro f0 hf0
        have hxf : x = f0 := by
          simpa using hf0
        subst hxf
        omega

theorem chain_prog_getLast (W : Nat) :
    ∀ (l : List Nat) (f : Nat), List.Chain' (fun a b => b = a + W) (f :: l) →
      (f :: l).getLast? = some (f + l.length * W)
  | [], f, _ => by simp
  | x :: xs, f, h => by
    have h1 : x = f + W := (List.chain'_cons.mp h).1
    have h2 := chain_prog_getLast W xs x (List.chain'_cons.mp h).2
    rw [List.getLast?_cons_cons, h2, h1]
    congr 1
    simp only [List.length_cons]
    rw [Nat.succ_mul]
    omega

theorem getLast?_of_suffix {l' l : List Nat} (h : l'.IsSuffix l) (hne : l' ≠ []) :
    l.getLast? = l'.getLast? := by
  obtain ⟨p, rfl⟩ := h
  obtain ⟨v, hv⟩ : ∃ v, l'.getLast? = some v := by
    cases l' with
    | nil => exact absurd rfl hne
    | cons a as => exact ⟨(a :: as).getLast (by simp), List.getLast?_eq_getLast _ (by simp)⟩
  rw [List.getLast?_append, hv]
  rfl

theorem pushTarget_cooldown (t : Target) (v : Nat) (s : Receiver) :
    (pushTarget t v s).restrictedActionCooldown = s.restrictedActionCooldown := by
  cases t <;> rfl

theorem runTrace_cooldown (n : String) :
    ∀ (calls : List (Nat × Call)) (s : Receiver),
      ((runTrace n calls s).1).restrictedActionCooldown = s.restrictedActionCooldown
  | [], _ => rfl
  | (now, Call.peekCall _) :: rest, s => by
    rw [show (runTrace n ((now, Call.peekCall _) :: rest) s).1 =
      (runTrace n rest (cleanBuckets now s)).1 from rfl]
    rw [runTrace_cooldown n rest (cleanBuckets now s)]
    rfl
  | (now, Call.acquireCall tgt) :: rest, s => by
    rw [show (runTrace n ((now, Call.acquireCall tgt) :: rest) s).1 =
      (runTrace n rest (acquire now tgt s).2).1 from rfl]
    rw [runTrace_cooldown n rest (acquire now tgt s).2]
    unfold acquire
    dsimp only
    rw [pushTarget_cooldown]
    rfl

theorem rinv_clean (n : String) (t t' : Nat) (s : Receiver) (trace : List Nat)
    (h : RInv n t s trace) (htt : t ≤ t') : RInv n t' (cleanBuckets t' s) trace := by
  obtain ⟨bucket, hb⟩ := h
  have hW1 : 1 ≤ s.restrictedActionCooldown := le_trans hb.hWb hb.hWW
  refine ⟨retainFresh t' s.restrictedActionCooldown bucket, ?_, ?_, ?_, ?_, ?_, ?_, ?_, ?_, ?_,
    ?_, ?_, ?_, ?_⟩
  · exact hb.hN
  · exact hb.hWb
  · exact hb.hWW
  · show retainFresh t' s.telegramCooldown s.telegrams = []
    rw [hb.htg]
    rfl
  · show retainFresh t' s.recruitmentCooldown s.recruitmentTelegrams = []
    rw [hb.hrec]
    rfl
  · exact hb.htrace
  · rcases hb.hmap with ⟨hm, hbk⟩ | hm
    · refine Or.inl ⟨?_, ?_⟩
      · show (s.restrictedActions.map _) = []
        rw [hm]
        rfl
      · rw [hbk]
        rfl
    · refine Or.inr ?_
      show (s.restrictedActions.map _) = _
      rw [hm]
      rfl
  · exact (retainFresh_suffix t' s.restrictedActionCooldown bucket
      (pairwise_le_of_chain_prog _ _ hb.hchain)).trans hb.hsuf
  · obtain ⟨p, hp⟩ := retainFresh_suffix t' s.restrictedActionCooldown bucket
      (pairwise_le_of_chain_prog _ _ hb.hchain)
    have hc := hb.hchain
    rw [← hp] at hc
    exact (List.chain'_append.mp hc).2.1
  · intro v hv
    exact of_decide_eq_true (List.mem_filter.mp hv).2
  · exact retainFresh_head_le t' s.restrictedActionCooldown hW1 bucket hb.hchain
      (fun f hf => le_trans (hb.hhead f hf) htt)
  · intro v hv hvf
    have hvf' : t' - v < s.restrictedActionCooldown := hvf
    have hvt : t - v < s.restrictedActionCooldown := by omega
    exact List.mem_filter.mpr ⟨hb.hmem v hv hvt, decide_eq_true hvf'⟩
  · show retainFresh t' s.bucketLength s.requests =
      retainFresh t' s.bucketLength (retainFresh t' s.restrictedActionCooldown bucket)
    rw [hb.hreq, retain_retain _ _ _ htt,
      retain_absorb s.bucketLength s.restrictedActionCooldown t' hb.hWW]

theorem pushRestricted_self (n : String) (v : Nat) (b : List Nat) :
    pushRestricted n v [(n, b)] = [(n, b ++ [v])] := by
  simp [pushRestricted]

theorem acquire_restricted_state (now : Nat) (n : String) (s : Receiver) :
    ((acquire now (Target.restricted n) s).2).telegrams =
      retainFresh now s.telegramCooldown s.telegrams ∧
    ((acquire now (Target.restricted n) s).2).recruitmentTelegrams =
      retainFresh now s.recruitmentCooldown s.recruitmentTelegrams ∧
    ((acquire now (Target.restricted n) s).2).requests =
      retainFresh now s.bucketLength s.requests ++
        [now + peek now (Target.restricted n) s] ∧
    ((acquire now (Target.restricted n) s).2).restrictedActions =
      pushRestricted n (now + peek now (Target.restricted n) s)
        ((cleanBuckets now s).restrictedActions) :=
  ⟨rfl, rfl, rfl, rfl⟩

theorem rinv_acquire (n : String) (t t' : Nat) (s : Receiver) (trace : List Nat)
    (h : RInv n t s trace) (htt : t ≤ t') :
    RInv n t' (acquire t' (Target.restricted n) s).2
      (trace ++ [t' + peek t' (Target.restricted n) s]) := by
  obtain ⟨bucket, hb⟩ := h
  have hww := hb.hWW
  have hwb := hb.hWb
  have hW1 : 1 ≤ s.restrictedActionCooldown := le_trans hwb hww
  have hgb : getBucket s n = bucket := by
    rcases hb.hmap with ⟨hm, hbk⟩ | hm
    · rw [hbk]
      simp [getBucket, hm]
    · simp [getBucket, hm]
  have hpr : peekRestricted t' n s =
      (match retainFresh t' s.restrictedActionCooldown bucket with
       | [] => 0
       | f :: rest => s.restrictedActionCooldown * (f :: rest).length - (t' - f)) := by
    rw [peekRestricted_eq_getBucket, hgb]
  have hreqview : retainFresh t' s.bucketLength s.requests =
      retainFresh t' s.bucketLength bucket := by
    rw [hb.hreq, retain_retain _ _ _ htt]
  have hstd : peekStandard t' s ≤
      s.bucketLength * ((retainFresh t' s.bucketLength bucket).length / s.maxRequests) := by
    unfold peekStandard
    rw [hreqview]
    cases hc : retainFresh t' s.bucketLength bucket with
    | nil => exact Nat.zero_le _
    | cons rf rrest => exact Nat.sub_le _ _
  have hmapnew : ((acquire t' (Target.restricted n) s).2).restrictedActions =
      [(n, retainFresh t' s.restrictedActionCooldown bucket ++
        [t' + peek t' (Target.restricted n) s])] := by
    rw [(acquire_restricted_state t' n s).2.2.2]
    rcases hb.hmap with ⟨hm, hbk⟩ | hm
    · rw [show (cleanBuckets t' s).restrictedActions = [] by simp [cleanBuckets, hm]]
      rw [hbk]
      rfl
    · rw [show (cleanBuckets t' s).restrictedActions =
        [(n, retainFresh t' s.restrictedActionCooldown bucket)] by simp [cleanBuckets, hm]]
      exact pushRestricted_self n _ _
  have hreqnew : ((acquire t' (Target.restricted n) s).2).requests =
      retainFresh t' s.bucketLength bucket ++ [t' + peek t' (Target.restricted n) s] := by
    rw [(acquire_restricted_state t' n s).2.2.1, hreqview]
  have htgnew : ((acquire t' (Target.restricted n) s).2).telegrams = [] := by
    rw [(acquire_restricted_state t' n s).1, hb.htg]
    rfl
  have hrecnew : ((acquire t' (Target.restricted n) s).2).recruitmentTelegrams = [] := by
    rw [(acquire_restricted_state t' n s).2.1, hb.hrec]
    rfl
  have hBsuf : (retainFresh t' s.restrictedActionCooldown bucket).IsSuffix bucket :=
    retainFresh_suffix t' s.restrictedActionCooldown bucket
      (pairwise_le_of_chain_prog _ _ hb.hchain)
  have hBchain : List.Chain' (fun a b => b = a + s.restrictedActionCooldown)
      (retainFresh t' s.restrictedActionCooldown bucket) := by
    obtain ⟨p, hp⟩ := hBsuf
    have hc := hb.hchain
    rw [← hp] at hc
    exact (List.chain'_append.mp hc).2.1
  cases hsplit : retainFresh t' s.restrictedActionCooldown bucket with
  | nil =>
    have hstale : ∀ v ∈ bucket, ¬ (t' - v < s.restrictedActionCooldown) := by
      intro v hv hcon
      have hvmem : v ∈ retainFresh t' s.restrictedActionCooldown bucket :=
        List.mem_filter.mpr ⟨hv, decide_eq_true hcon⟩
      rw [hsplit] at hvmem
      cases hvmem
    have hreqnil : retainFresh t' s.bucketLength bucket = [] := by
      unfold retainFresh
      rw [List.filter_eq_nil_iff]
      intro v hv
      have hsv := hstale v hv
      simp only [decide_eq_true_eq]
      omega
    have hps : peekStandard t' s = 0 := by
      unfold peekStandard
      rw [hreqview, hreqnil]
    have hprz : peekRestricted t' n s = 0 := by
      rw [hpr, hsplit]
    have hw : peek t' (Target.restricted n) s = 0 := by
      simp [peek, hprz, hps]
    have hnv : t' + peek t' (Target.restricted n) s = t' := by
      rw [hw]
      omega
    have hstale' : ∀ v ∈ trace, v + s.restrictedActionCooldown ≤ t' := by
      intro v hv
      by_cases hfr : t' - v < s.restrictedActionCooldown
      · have hfr0 : t - v < s.restrictedActionCooldown := by omega
        exact absurd hfr (hstale v (hb.hmem v hv hfr0))
      · omega
    have htraceNew : List.Chain' (fun a b => a + s.restrictedActionCooldown ≤ b)
        (trace ++ [t' + peek t' (Target.restricted n) s]) := by
      refine List.chain'_append.mpr ⟨hb.htrace, List.chain'_singleton _, ?_⟩
      intro x hx y hy
      have hyx : t' + peek t' (Target.restricted n) s = y := by
        simpa using hy
      have hxmem : x ∈ trace := List.mem_of_getLast?_eq_some hx
      rw [← hyx, hnv]
      exact hstale' x hxmem
    have hsufNew : (retainFresh t' s.restrictedActionCooldown bucket ++
        [t' + peek t' (Target.restricted n) s]).IsSuffix
        (trace ++ [t' + peek t' (Target.restricted n) s]) := by
      rw [hsplit]
      exact ⟨trace, by simp⟩
    have hchainNew : List.Chain' (fun a b => b = a + s.restrictedActionCooldown)
        (retainFresh t' s.restrictedActionCooldown bucket ++
          [t' + peek t' (Target.restricted n) s]) := by
      rw [hsplit]
      exact List.chain'_singleton _
    have hfreshNew : ∀ v ∈ retainFresh t' s.restrictedActionCooldown bucket ++
        [t' + peek t' (Target.restricted n) s], t' - v < s.restrictedActionCooldown := by
      intro v hv
      rw [hsplit] at hv
      have hveq : v = t' + peek t' (Target.restricted n) s := by
        simpa using hv
      rw [hveq, hnv]
      omega
    have hheadNew : ∀ f0, (retainFresh t' s.restrictedActionCooldown bucket ++
        [t' + peek t' (Target.restricted n) s]).head? = some f0 → f0 ≤ t' := by
      intro f0 hf0
      rw [hsplit] at hf0
      have hfeq : t' + peek t' (Target.restricted n) s = f0 := by
        simpa using hf0
      rw [← hfeq, hnv]
    have hmemNew : ∀ v ∈ trace ++ [t' + peek t' (Target.restricted n) s],
        t' - v < s.restrictedActionCooldown →
        v ∈ retainFresh t' s.restrictedActionCooldown bucket ++
          [t' + peek t' (Target.restricted n) s] := by
      intro v hv hvfr
      rcases List.mem_append.mp hv with hvt | hvn
      · have := hstale' v hvt
        omega
      · exact List.mem_append_right _ hvn
    have hreqNew2 : ((acquire t' (Target.restricted n) s).2).requests =
        retainFresh t' s.bucketLength (retainFresh t' s.restrictedActionCooldown bucket ++
          [t' + peek t' (Target.restricted n) s]) := by
      rw [hreqnew, hreqnil, hsplit, List.nil_append]
      unfold retainFresh
      rw [List.filter_cons_of_pos]
      · rfl
      · rw [hnv]
        simp only [decide_eq_true_eq]
        omega
    exact ⟨retainFresh t' s.restrictedActionCooldown bucket ++
      [t' + peek t' (Target.restricted n) s], hb.hN, hb.hWb, hb.hWW, htgnew, hrecnew,
      htraceNew, Or.inr hmapnew, hsufNew, hchainNew, hfreshNew, hheadNew, hmemNew, hreqNew2⟩
  | cons f rest =>
    have hBchain' : List.Chain' (fun a b => b = a + s.restrictedActionCooldown) (f :: rest) := by
      rw [← hsplit]
      exact hBchain
    have hffresh : t' - f < s.restrictedActionCooldown := by
      have hfmem : f ∈ retainFresh t' s.restrictedActionCooldown bucket := by
        rw [hsplit]
        exact List.mem_cons_self _ _
      exact of_decide_eq_true (List.mem_filter.mp hfmem).2
    have hfle : f ≤ t' :=
      retainFresh_head_le t' s.restrictedActionCooldown hW1 bucket hb.hchain
        (fun f0 hf0 => le_trans (hb.hhead f0 hf0) htt) f (by rw [hsplit]; rfl)
    have hlast : (f :: rest).getLast? =
        some (f + rest.length * s.restrictedActionCooldown) :=
      chain_prog_getLast _ rest f hBchain'
    have hprv : peekRestricted t' n s =
        s.restrictedActionCooldown * (rest.length + 1) - (t' - f) := by
      rw [hpr, hsplit]
      dsimp only
      rw [List.length_cons]
    have habs : retainFresh t' s.bucketLength (f :: rest) =
        retainFresh t' s.bucketLength bucket := by
      rw [← hsplit]
      exact retain_absorb _ _ _ hww bucket
    have hm_le : (retainFresh t' s.bucketLength bucket).length ≤ rest.length + 1 := by
      rw [← habs]
      have hfl := List.length_filter_le (fun v => decide (t' - v < s.bucketLength)) (f :: rest)
      simpa [retainFresh] using hfl
    have h2 : (retainFresh t' s.bucketLength bucket).length / s.maxRequests ≤
        (rest.length + 1) / 2 :=
      le_trans (Nat.div_le_div_right hm_le) (Nat.div_le_div_left hb.hN (by omega))
    have h3 : s.bucketLength *
        ((retainFresh t' s.bucketLength bucket).length / s.maxRequests) ≤
        s.restrictedActionCooldown * ((rest.length + 1) / 2) :=
      Nat.mul_le_mul hww h2
    have h4 : (rest.length + 1) / 2 ≤ rest.length := by omega
    have h5 : s.restrictedActionCooldown * ((rest.length + 1) / 2) ≤
        s.restrictedActionCooldown * rest.length :=
      Nat.mul_le_mul_left _ h4
    have h6 : s.restrictedActionCooldown * (rest.length + 1) =
        s.restrictedActionCooldown * rest.length + s.restrictedActionCooldown :=
      Nat.mul_succ _ _
    have hcomm : rest.length * s.restrictedActionCooldown =
        s.restrictedActionCooldown * rest.length :=
      Nat.mul_comm _ _
    have hkey : peekStandard t' s ≤
        s.restrictedActionCooldown * (rest.length + 1) - (t' - f) := by
      omega
    have hw : peek t' (Target.restricted n) s =
        s.restrictedActionCooldown * (rest.length + 1) - (t' - f) := by
      simp only [peek]
      rw [hprv]
      exact Nat.max_eq_left hkey
    have hnv : t' + peek t' (Target.restricted n) s =
        f + s.restrictedActionCooldown * (rest.length + 1) := by
      rw [hw]
      omega
    have hnewgt : t' < t' + peek t' (Target.restricted n) s := by
      rw [hnv]
      omega
    have htraceNew : List.Chain' (fun a b => a + s.restrictedActionCooldown ≤ b)
        (trace ++ [t' + peek t' (Target.restricted n) s]) := by
      refine List.chain'_append.mpr ⟨hb.htrace, List.chain'_singleton _, ?_⟩
      intro x hx y hy
      have hyx : t' + peek t' (Target.restricted n) s = y := by
        simpa using hy
      have htrl : trace.getLast? = (f :: rest).getLast? := by
        have hsufT : (f :: rest).IsSuffix trace := by
          rw [← hsplit]
          exact hBsuf.trans hb.hsuf
        exact getLast?_of_suffix hsufT (by simp)
      rw [htrl, hlast] at hx
      have hxeq : f + rest.length * s.restrictedActionCooldown = x := by
        simpa using hx
      rw [← hyx, hnv, ← hxeq]
      omega
    have hsufNew : (retainFresh t' s.restrictedActionCooldown bucket ++
        [t' + peek t' (Target.restricted n) s]).IsSuffix
        (trace ++ [t' + peek t' (Target.restricted n) s]) := by
      obtain ⟨p, hp⟩ := hBsuf.trans hb.hsuf
      exact ⟨p, by rw [← List.append_assoc, hp]⟩
    have hchainNew : List.Chain' (fun a b => b = a + s.restrictedActionCooldown)
        (retainFresh t' s.restrictedActionCooldown bucket ++
          [t' + peek t' (Target.restricted n) s]) := by
      refine List.chain'_append.mpr ⟨hBchain, List.chain'_singleton _, ?_⟩
      intro x hx y hy
      rw [hsplit, hlast] at hx
      have hxeq : f + rest.length * s.restrictedActionCooldown = x := by
        simpa using hx
      have hyx : t' + peek t' (Target.restricted n) s = y := by
        simpa using hy
      rw [← hyx, hnv, ← hxeq]
      omega
    have hfreshNew : ∀ v ∈ retainFresh t' s.restrictedActionCooldown bucket ++
        [t' + peek t' (Target.restricted n) s], t' - v < s.restrictedActionCooldown := by
      intro v hv
      rcases List.mem_append.mp hv with hvb | hvn
      · exact of_decide_eq_true (List.mem_filter.mp hvb).2
      · have hveq : v = t' + peek t' (Target.restricted n) s := by
          simpa using hvn
        omega
    have hheadNew : ∀ f0, (retainFresh t' s.restrictedActionCooldown bucket ++
        [t' + peek t' (Target.restricted n) s]).head? = some f0 → f0 ≤ t' := by
      intro f0 hf0
      rw [hsplit] at hf0
      have hfeq : f = f0 := by
        simpa using hf0
      rw [← hfeq]
      exact hfle
    have hmemNew : ∀ v ∈ trace ++ [t' + peek t' (Target.restricted n) s],
        t' - v < s.restrictedActionCooldown →
        v ∈ retainFresh t' s.restrictedActionCooldown bucket ++
          [t' + peek t' (Target.restricted n) s] := by
      intro v hv hvfr
      rcases List.mem_append.mp hv with hvt | hvn
      · have hvt0 : t - v < s.restrictedActionCooldown := by omega
        exact List.mem_append_left _
          (List.mem_filter.mpr ⟨hb.hmem v hvt hvt0, decide_eq_true hvfr⟩)
      · exact List.mem_append_right _ hvn
    have hreqNew2 : ((acquire t' (Target.restricted n) s).2).requests =
        retainFresh t' s.bucketLength (retainFresh t' s.restrictedActionCooldown bucket ++
          [t' + peek t' (Target.restricted n) s]) := by
      rw [hreqnew]
      unfold retainFresh
      rw [List.filter_append]
      have hsingle : List.filter (fun v => decide (t' - v < s.bucketLength))
          [t' + peek t' (Target.restricted n) s] =
          [t' + peek t' (Target.restricted n) s] := by
        rw [List.filter_cons_of_pos]
        · rfl
        · simp only [decide_eq_true_eq]
          omega
      rw [hsingle]
      have habs2 : List.filter (fun v => decide (t' - v < s.bucketLength))
          (List.filter (fun v => decide (t' - v < s.restrictedActionCooldown)) bucket) =
          List.filter (fun v => decide (t' - v < s.bucketLength)) bucket := by
        have hra := retain_absorb s.bucketLength s.restrictedActionCooldown t' hww bucket
        simpa [retainFresh] using hra
      rw [habs2]
    exact ⟨retainFresh t' s.restrictedActionCooldown bucket ++
      [t' + peek t' (Target.restricted n) s], hb.hN, hb.hWb, hb.hWW, htgnew, hrecnew,
      htraceNew, Or.inr hmapnew, hsufNew, hchainNew, hfreshNew, hheadNew, hmemNew, hreqNew2⟩

theorem rinv_run (n : String) :
    ∀ (calls : List (Nat × Call)) (s : Receiver) (trace : List Nat) (t : Nat),
      RInv n t s trace →
      List.Chain' (fun a b : Nat => a ≤ b) (t :: calls.map Prod.fst) →
      restrictedOnlyB n calls = true →
      ∃ t2, RInv n t2 (runTrace n calls s).1 (trace ++ (runTrace n calls s).2) := by
  intro calls
  induction calls with
  | nil =>
    intro s trace t hinv _ _
    refine ⟨t, ?_⟩
    have happ : trace ++ (runTrace n [] s).2 = trace := List.append_nil trace
    rw [happ]
    exact hinv
  | cons c rest ih =>
    obtain ⟨t1, cc⟩ := c
    intro s trace t hinv hchain honly
    have ht1 : t ≤ t1 := (List.chain'_cons'.mp hchain).1 t1 (by simp)
    have hchain1 : List.Chain' (fun a b : Nat => a ≤ b) (t1 :: rest.map Prod.fst) := by
      have h2 := (List.chain'_cons'.mp hchain).2
      simpa using h2
    have honly1 : restrictedOnlyB n rest = true := by
      simp only [restrictedOnlyB, List.all_cons, Bool.and_eq_true] at honly
      exact honly.2
    cases cc with
    | peekCall tgt =>
      have hres : runTrace n ((t1, Call.peekCall tgt) :: rest) s =
          runTrace n rest (cleanBuckets t1 s) := rfl
      rw [hres]
      exact ih (cleanBuckets t1 s) trace t1 (rinv_clean n t t1 s trace hinv ht1) hchain1 honly1
    | acquireCall tgt =>
      have htgt : tgt = Target.restricted n := by
        simp only [restrictedOnlyB, List.all_cons, Bool.and_eq_true] at honly
        exact of_decide_eq_true honly.1
      subst htgt
      have htouch : touchesRestricted n (Target.restricted n) = true := by
        simp [touchesRestricted]
      have hres : runTrace n ((t1, Call.acquireCall (Target.restricted n)) :: rest) s =
          ((runTrace n rest (acquire t1 (Target.restricted n) s).2).1,
           [t1 + peek t1 (Target.restricted n) s] ++
             (runTrace n rest (acquire t1 (Target.restricted n) s).2).2) := by
        simp [runTrace, htouch]
      obtain ⟨t2, h2⟩ := ih (acquire t1 (Target.restricted n) s).2
        (trace ++ [t1 + peek t1 (Target.restricted n) s]) t1
        (rinv_acquire n t t1 s trace hinv ht1) hchain1 honly1
      refine ⟨t2, ?_⟩
      rw [hres]
      simpa [List.append_assoc] using h2

/-- C2 amended: in any finite sequence of rate-limiter calls from the empty
state in which every acquire targets `Restricted{n}` for one fixed nation `n`
(peeks unrestricted), with nondecreasing call times, at least two slots in
the global bucket, a positive global window no longer than the restricted
window (the defaults satisfy all three), any two reservation timestamps
recorded in `Restricted{n}` are at least the restricted window apart.  The
unamended claim — over sequences that may also acquire telegram targets —
is refuted by `c2_counterexample`. -/
theorem c2_restricted_spacing (n : String) (calls : List (Nat × Call))
    (maxRequests bucketLength telegramCooldown recruitmentCooldown
      restrictedActionCooldown : Nat)
    (hN : 2 ≤ maxRequests) (hWb : 1 ≤ bucketLength)
    (hWW : bucketLength ≤ restrictedActionCooldown)
    (honly : restrictedOnlyB n calls = true)
    (hmono : List.Chain' (fun a b : Nat => a ≤ b) (calls.map Prod.fst)) :
    List.Pairwise (fun a b => a + restrictedActionCooldown ≤ b)
      (runTrace n calls (initReceiver maxRequests bucketLength telegramCooldown
        recruitmentCooldown restrictedActionCooldown)).2 := by
  have hinv0 : RInv n 0 (initReceiver maxRequests bucketLength telegramCooldown
      recruitmentCooldown restrictedActionCooldown) [] := by
    refine ⟨[], hN, hWb, hWW, rfl, rfl, List.chain'_nil, Or.inl ⟨rfl, rfl⟩,
      List.nil_suffix, List.chain'_nil, ?_, ?_, ?_, rfl⟩
    · intro v hv
      cases hv
    · intro f hf
      exact Option.noConfusion hf
    · intro v hv
      cases hv
  have hchain0 : List.Chain' (fun a b : Nat => a ≤ b) (0 :: calls.map Prod.fst) :=
    List.chain'_cons'.mpr ⟨fun y _ => Nat.zero_le y, hmono⟩
  obtain ⟨t2, hinv⟩ := rinv_run n calls _ [] 0 hinv0 hchain0 honly
  obtain ⟨bucket, hbf⟩ := hinv
  have hchainT := hbf.htrace
  have hcd : ((runTrace n calls (initReceiver maxRequests bucketLength telegramCooldown
      recruitmentCooldown restrictedActionCooldown)).1).restrictedActionCooldown =
      restrictedActionCooldown := by
    rw [runTrace_cooldown]
    rfl
  rw [hcd] at hchainT
  rw [List.nil_append] at hchainT
  exact pairwise_of_gap_chain _ _ hchainT

theorem c2_witness :
    ((2 : Nat) ≤ 50 ∧ (1 : Nat) ≤ 30050 ∧ (30050 : Nat) ≤ 60000 ∧
     restrictedOnlyB "wa" witCalls = true ∧
     List.Chain' (fun a b : Nat => a ≤ b) (witCalls.map Prod.fst)) ∧
    List.Pairwise (fun a b => a + 60000 ≤ b)
      (runTrace "wa" witCalls (initReceiver 50 30050 30050 180050 60000)).2 :=
  ⟨⟨by decide, by decide, by decide, by decide,
    List.chain'_cons.mpr ⟨by omega, List.chain'_singleton _⟩⟩,
   c2_restricted_spacing "wa" witCalls 50 30050 30050 180050 60000
     (by decide) (by decide) (by decide) (by decide)
     (List.chain'_cons.mpr ⟨by omega, List.chain'_singleton _⟩)⟩

end Eurocore
